import Mathlib

/-!
Verification of the EasyBackuper restore handler
(src/endstone_easybackuper/restore_handler.py) against its design
specification.

The development shallowly embeds the parts of the script the claims talk
about:

* the batch partitioning of the multi-threaded directory copier
  (copy_dir_with_progress, lines 114-166);
* the sequential event trace of one copy_dir_with_progress call
  (directory creation before worker threads);
* the control flow of main() (lines 234-512) as a function from an
  environment of external outcomes (process-table query, archive tool
  exit codes, pre-existing directories) to the list of filesystem and
  process actions it performs plus its return value, and of the
  top-level __main__ block (lines 514-550) mapping that to a process
  exit status;
* the bottom-up deletion of the old world directory (lines 438-447) as
  an event trace checked against a small-step filesystem semantics in
  which unlink fails on a read-only file and rmdir fails on a non-empty
  directory;
* the file-level effect of extraction plus the SWAP copy.
-/

namespace EasyBackuper

/-! ## Batch partitioning of copy_dir_with_progress

The script computes
  batch_size = max(1, len(files_to_copy) // max_threads)
  batches = [files_to_copy[i:i + batch_size] for i in range(0, len(files_to_copy), batch_size)]
and starts one thread per batch.  `chunk bs l` mirrors the slicing list
comprehension: for `bs ≥ 1` it yields the slices `l[0:bs], l[bs:2*bs], ...`.
The script only ever calls it with `bs ≥ 1` (because of the `max(1, _)`);
Python would raise on a zero step, and the `bs = 0` case of `chunk` is
never reached from `copyBatches`. -/
def chunkF : Nat → Nat → List α → List (List α)
  | _, _, [] => []
  | 0, _, l => [l]
  | fuel + 1, bs, x :: xs => (x :: xs).take bs :: chunkF fuel bs (xs.drop (bs - 1))

/-- Entry point: run `chunkF` with enough fuel for the whole list, so the
fuel-exhausted fallback is never reached. -/
def chunk (bs : Nat) (l : List α) : List (List α) := chunkF l.length bs l

theorem chunkF_fuel_irrel (bs : Nat) :
    ∀ f₁ f₂ (l : List α), l.length ≤ f₁ → l.length ≤ f₂ →
      chunkF f₁ bs l = chunkF f₂ bs l := by
  intro f₁
  induction f₁ with
  | zero =>
    intro f₂ l h1 _
    have : l = [] := List.length_eq_zero.1 (Nat.le_zero.1 h1)
    subst this
    cases f₂ <;> rfl
  | succ g ih =>
    intro f₂ l h1 h2
    cases l with
    | nil => cases f₂ <;> rfl
    | cons x xs =>
      cases f₂ with
      | zero => simp at h2
      | succ g₂ =>
        simp only [chunkF]
        congr 1
        exact ih g₂ (xs.drop (bs - 1))
          (by simp only [List.length_drop]; simp at h1; omega)
          (by simp only [List.length_drop]; simp at h2; omega)

/-- Embeds `batch_size = max(1, len(files_to_copy) // max_threads)`
(line 154); Python `//` on naturals is Lean `Nat.div`. -/
def batchSize (n maxThreads : Nat) : Nat := max 1 (n / maxThreads)

/-- The batches built on line 155 of the script. -/
def copyBatches (files : List α) (maxThreads : Nat) : List (List α) :=
  chunk (batchSize files.length maxThreads) files

/-- One `threading.Thread` is created and started per batch
(lines 158-162), so the number of spawned workers is the number of
batches. -/
def spawnedWorkers (files : List α) (maxThreads : Nat) : Nat :=
  (copyBatches files maxThreads).length

theorem chunk_cons_eq (bs : Nat) (hbs : 1 ≤ bs) (x : α) (xs : List α) :
    chunk bs (x :: xs) = (x :: xs).take bs :: chunk bs ((x :: xs).drop bs) := by
  have hdrop : (x :: xs).drop bs = xs.drop (bs - 1) := by
    cases bs with
    | zero => omega
    | succ n => simp
  simp only [chunk, List.length_cons, chunkF]
  rw [hdrop]
  congr 1
  exact chunkF_fuel_irrel bs xs.length (xs.drop (bs - 1)).length (xs.drop (bs - 1))
    (by simp only [List.length_drop]; omega) le_rfl

theorem chunk_flatten (bs : Nat) (hbs : 1 ≤ bs) (l : List α) :
    (chunk bs l).flatten = l := by
  have key : ∀ n (l : List α), l.length = n → (chunk bs l).flatten = l := by
    intro n
    induction n using Nat.strong_induction_on with
    | _ n ih =>
      intro l hn
      cases l with
      | nil => simp [chunk, chunkF]
      | cons x xs =>
        rw [chunk_cons_eq bs hbs, List.flatten_cons,
          ih ((x :: xs).drop bs).length
            (by simp only [List.length_drop, List.length_cons] at hn ⊢; omega) _ rfl,
          List.take_append_drop]
  exact key l.length l rfl

theorem chunk_mem_length (bs : Nat) (hbs : 1 ≤ bs) (l : List α) :
    ∀ b ∈ chunk bs l, b ≠ [] ∧ b.length ≤ bs := by
  have key : ∀ n (l : List α), l.length = n → ∀ b ∈ chunk bs l, b ≠ [] ∧ b.length ≤ bs := by
    intro n
    induction n using Nat.strong_induction_on with
    | _ n ih =>
      intro l hn
      cases l with
      | nil => simp [chunk, chunkF]
      | cons x xs =>
        rw [chunk_cons_eq bs hbs]
        intro b hb
        rcases List.mem_cons.1 hb with h | h
        · subst h
          constructor
          · simp [List.take_eq_nil_iff]
            omega
          · simp
        · exact ih ((x :: xs).drop bs).length
            (by simp only [List.length_drop, List.length_cons] at hn ⊢; omega) _ rfl b h
  exact key l.length l rfl

theorem chunk_length (bs : Nat) (hbs : 1 ≤ bs) (l : List α) :
    (chunk bs l).length = (l.length + bs - 1) / bs := by
  have key : ∀ n (l : List α), l.length = n →
      (chunk bs l).length = (l.length + bs - 1) / bs := by
    intro n
    induction n using Nat.strong_induction_on with
    | _ n ih =>
      intro l hn
      cases l with
      | nil => simp [chunk, chunkF, Nat.div_eq_of_lt (by omega : bs - 1 < bs)]
      | cons x xs =>
        rw [chunk_cons_eq bs hbs, List.length_cons,
          ih ((x :: xs).drop bs).length
            (by simp only [List.length_drop, List.length_cons] at hn ⊢; omega) _ rfl]
        simp only [List.length_drop, List.length_cons]
        rcases Nat.lt_or_ge (xs.length + 1) bs with hlt | hge
        · have h1 : xs.length + 1 - bs = 0 := by omega
          have h2 : (xs.length + 1 + bs - 1) / bs = 1 :=
            Nat.div_eq_of_lt_le (by omega) (by omega)
          rw [h1, h2]
          simp [chunk, chunkF, Nat.div_eq_of_lt (by omega : bs - 1 < bs)]
        · have h1 : xs.length + 1 - bs + bs - 1 + bs = xs.length + 1 + bs - 1 := by
            omega
          rw [← Nat.add_div_right _ (by omega : 0 < bs), h1]
  exact key l.length l rfl

/-- C4: for every file list (any count, zero included) and every
workerCount ≥ 1, the batches produced on line 155 of
copy_dir_with_progress concatenate back to exactly the original file
list — so the batches are pairwise disjoint slices whose union is the
full list, every file appearing in exactly one batch — and when the
file list is empty no batch exists, hence no worker thread is started
by the loop on lines 159-162. -/
theorem c4_partition_exact (files : List α) (w : Nat) (hw : 1 ≤ w) :
    (copyBatches files w).flatten = files ∧
      (files = [] → spawnedWorkers files w = 0) := by
  refine ⟨chunk_flatten _ (le_max_left 1 _) files, fun h => ?_⟩
  subst h
  rfl


theorem c4_partition_exact_witness :
    1 ≤ 2 ∧
      ((copyBatches [10, 11, 12, 13, 14] 2).flatten = [10, 11, 12, 13, 14] ∧
        (([10, 11, 12, 13, 14] : List Nat) = [] →
          spawnedWorkers [10, 11, 12, 13, 14] 2 = 0)) :=
  ⟨by decide, c4_partition_exact [10, 11, 12, 13, 14] 2 (by decide)⟩

/-- C3 counterexample: with 5 files and workerCount 2 the script builds
batches of size max(1, 5 // 2) = 2 — not ceil(5 / 2) = 3 — and starts 3
worker threads, more than workerCount. -/
theorem c3_batching_counterexample :
    batchSize 5 2 = 2 ∧ batchSize 5 2 ≠ (5 + 2 - 1) / 2 ∧
      copyBatches [10, 11, 12, 13, 14] 2 = [[10, 11], [12, 13], [14]] ∧
      spawnedWorkers [10, 11, 12, 13, 14] 2 = 3 ∧ ¬ spawnedWorkers [10, 11, 12, 13, 14] 2 ≤ 2 := by
  decide

/-- C3 amended: for every file list of n ≥ 1 files and every
workerCount ≥ 1, copy_dir_with_progress partitions the files into
contiguous batches of size max(1, floor(n / workerCount)) (the last
batch possibly smaller), every batch nonempty, and spawns one worker
thread per batch, i.e. ceil(n / max(1, floor(n / workerCount))) threads
— a number that can exceed workerCount. -/
theorem c3_batching_amended (files : List α) (w : Nat) (hn : 1 ≤ files.length)
    (hw : 1 ≤ w) :
    (copyBatches files w).flatten = files ∧
      (∀ b ∈ copyBatches files w,
        b ≠ [] ∧ b.length ≤ max 1 (files.length / w)) ∧
      spawnedWorkers files w =
        (files.length + max 1 (files.length / w) - 1) / max 1 (files.length / w) := by
  refine ⟨chunk_flatten _ (le_max_left 1 _) files, ?_, ?_⟩
  · exact chunk_mem_length _ (le_max_left 1 _) files
  · exact chunk_length _ (le_max_left 1 _) files

theorem c3_batching_amended_witness :
    1 ≤ ([10, 11, 12, 13, 14] : List Nat).length ∧ 1 ≤ 2 ∧
      ((copyBatches [10, 11, 12, 13, 14] 2).flatten = [10, 11, 12, 13, 14] ∧
        (∀ b ∈ copyBatches [10, 11, 12, 13, 14] 2,
          b ≠ [] ∧ b.length ≤ max 1 (([10, 11, 12, 13, 14] : List Nat).length / 2)) ∧
        spawnedWorkers [10, 11, 12, 13, 14] 2 =
          (([10, 11, 12, 13, 14] : List Nat).length +
              max 1 (([10, 11, 12, 13, 14] : List Nat).length / 2) - 1) /
            max 1 (([10, 11, 12, 13, 14] : List Nat).length / 2)) :=
  ⟨by decide, by decide, c3_batching_amended [10, 11, 12, 13, 14] 2 (by decide) (by decide)⟩

/-! ## The sequential trace of one copy_dir_with_progress call

Lines 121-166 run strictly in order in the calling thread: create the
destination root if absent, walk the source recording directories and
files, create every destination directory that does not yet exist
(lines 143-146), then start one worker thread per batch (lines 159-162)
and join them all (lines 165-166).  `copyDirTrace` records that
sequence of externally visible steps; `dirs` carries each destination
directory together with whether it already exists (the
`os.path.exists` test on line 144), `rootExists` the test on
line 121. -/

inductive CopyEv (α β : Type) where
  | mkRootDir
  | mkdir (d : β)
  | startWorker (batch : List α)
  | joinWorker (batch : List α)
deriving DecidableEq

/-- Is the event a directory-creation step (lines 121-123 or 143-146)? -/
def CopyEv.isMkdirEv : CopyEv α β → Bool
  | .mkRootDir => true
  | .mkdir _ => true
  | _ => false

/-- Is the event the start of a worker thread (line 161)? -/
def CopyEv.isStartEv : CopyEv α β → Bool
  | .startWorker _ => true
  | _ => false

/-- The ordered steps of one copy_dir_with_progress call. -/
def copyDirTrace (rootExists : Bool) (dirs : List (β × Bool)) (files : List α)
    (w : Nat) : List (CopyEv α β) :=
  (if rootExists then [] else [CopyEv.mkRootDir]) ++
    (dirs.filter (fun d => !d.2)).map (fun d => CopyEv.mkdir d.1) ++
    (copyBatches files w).map CopyEv.startWorker ++
    (copyBatches files w).map CopyEv.joinWorker

theorem copyDirTrace_split (rootExists : Bool) (dirs : List (β × Bool))
    (files : List α) (w : Nat) :
    ∃ pre post,
      copyDirTrace rootExists dirs files w = pre ++ post ∧
        (∀ e ∈ pre, CopyEv.isStartEv e = false) ∧
        (∀ e ∈ post, CopyEv.isMkdirEv e = false) := by
  refine ⟨(if rootExists then [] else [CopyEv.mkRootDir]) ++
    (dirs.filter (fun d => !d.2)).map (fun d => CopyEv.mkdir d.1),
    (copyBatches files w).map CopyEv.startWorker ++
      (copyBatches files w).map CopyEv.joinWorker, ?_, ?_, ?_⟩
  · simp [copyDirTrace]
  · intro e he
    rcases List.mem_append.1 he with h | h
    · rcases rootExists with _ | _ <;> simp_all [CopyEv.isStartEv]
    · rcases List.mem_map.1 h with ⟨d, _, rfl⟩
      rfl
  · intro e he
    rcases List.mem_append.1 he with h | h <;>
      rcases List.mem_map.1 h with ⟨b, _, rfl⟩ <;> rfl

/-- C9: within one copy_dir_with_progress call every destination
directory creation (the root on lines 121-123 and the walked
directories, created sequentially in discovery order on lines 143-146)
occurs at a strictly earlier position of the call step sequence than
every worker-thread start (line 161): no worker thread is started until
all destination directories exist. -/
theorem c9_mkdir_before_workers (rootExists : Bool) (dirs : List (β × Bool))
    (files : List α) (w : Nat) (i j : Nat)
    (hi : i < (copyDirTrace rootExists dirs files w).length)
    (hj : j < (copyDirTrace rootExists dirs files w).length)
    (hmk : ((copyDirTrace rootExists dirs files w).get ⟨i, hi⟩).isMkdirEv = true)
    (hst : ((copyDirTrace rootExists dirs files w).get ⟨j, hj⟩).isStartEv = true) :
    i < j := by
  obtain ⟨pre, post, heq, hpre, hpost⟩ := copyDirTrace_split rootExists dirs files w
  have hlen : (copyDirTrace rootExists dirs files w).length = pre.length + post.length := by
    rw [heq, List.length_append]
  have hi_lt : i < pre.length := by
    by_contra hge
    push_neg at hge
    have hj2 : i - pre.length < post.length := by omega
    have : (copyDirTrace rootExists dirs files w).get ⟨i, hi⟩ = post.get ⟨i - pre.length, hj2⟩ := by
      simp only [heq, List.get_eq_getElem]
      exact List.getElem_append_right hge
    rw [this] at hmk
    have hc := hpost (post.get ⟨i - pre.length, hj2⟩) (post.get_mem _ _)
    rw [hmk] at hc
    cases hc
  have hj_ge : pre.length ≤ j := by
    by_contra hlt
    push_neg at hlt
    have : (copyDirTrace rootExists dirs files w).get ⟨j, hj⟩ = pre.get ⟨j, hlt⟩ := by
      simp only [heq, List.get_eq_getElem]
      exact List.getElem_append_left hlt
    rw [this] at hst
    have hc := hpre (pre.get ⟨j, hlt⟩) (pre.get_mem _ _)
    rw [hst] at hc
    cases hc
  omega

theorem c9_mkdir_before_workers_witness :
    0 < (copyDirTrace false [((0 : Nat), false)] [(5 : Nat)] 2).length ∧
      1 < (copyDirTrace false [((0 : Nat), false)] [(5 : Nat)] 2).length ∧
      (0 : Nat) < 2 :=
  ⟨by decide, by decide,
    c9_mkdir_before_workers false [((0 : Nat), false)] [(5 : Nat)] 2 0 2
      (by decide) (by decide) (by decide) (by decide)⟩

/-! ## Control-flow model of main() and the top-level block

main() (lines 234-512) is a straight-line procedure whose branching
depends only on the configuration, on whether certain paths exist, and
on the exit codes of the external archive tools.  `RunEnv` packages
those externally determined outcomes; `mainRun` returns the ordered
list of externally visible actions main() performs together with its
return value (`Except.error` when an exception escapes main()).
Logging, chdir and the creation of the backup folder for the archive
file mirror lines the claims do not touch and are kept only where an
action is load-bearing for a claim.  All paths are relative to the
server directory, to which the script chdirs on line 258. -/

/-- The filesystem locations main() manipulates.
worldsDir = worlds, worldDir = worlds/<world_name>,
tempBackupDir = temp_easybackuper_backup,
tempWorldBackupDir = temp_easybackuper_backup/<world_name>,
tempDir = temp_easybackuper, tempWorldDir = temp_easybackuper/<world_name>,
backupFolder and backupArchive are the folder and timestamped file of
the pre-restore backup, restoreArchive the archive being restored. -/
inductive PathId where
  | worldsDir
  | worldDir
  | tempBackupDir
  | tempWorldBackupDir
  | tempDir
  | tempWorldDir
  | backupFolder
  | backupArchive
  | restoreArchive
deriving DecidableEq

/-- The path (relative to the server directory) a `PathId` denotes, for
a given requested world name. -/
def pathOf (worldName : String) : PathId → List String
  | .worldsDir => ["worlds"]
  | .worldDir => ["worlds", worldName]
  | .tempBackupDir => ["temp_easybackuper_backup"]
  | .tempWorldBackupDir => ["temp_easybackuper_backup", worldName]
  | .tempDir => ["temp_easybackuper"]
  | .tempWorldDir => ["temp_easybackuper", worldName]
  | .backupFolder => ["backup"]
  | .backupArchive => ["backup", "before_restore_timestamp"]
  | .restoreArchive => ["restoreArchive"]

/-- The externally visible actions of one main() run. -/
inductive Action where
  | waitUntilStopped
  | makeDir (p : PathId)
  | removeTree (p : PathId)
  | copyDir (src dst : PathId)
  | compress (src archive : PathId)
  | extract (archive dst : PathId)
  | deleteWorldContents
  | launchRestart
deriving DecidableEq

/-- Outcomes of the external world that determine the control flow of
one run: the configuration values read by load_config, whether the
configured 7za executable and the various directories exist, whether
the process-table query command itself fails (raising in Popen),
whether bedrock_server is initially running, the exit codes of the
archive tools, and whether a KeyboardInterrupt is delivered. -/
structure RunEnv where
  use7z : Bool
  exe7zExists : Bool
  backupOldWorld : Bool
  restartStatus : Bool
  serverRunning : Bool
  processQueryFails : Bool
  interrupted : Bool
  tempBackupDirPreexists : Bool
  tempDirPreexists : Bool
  worldDirExists : Bool
  preCompressExit : Nat
  extractExit : Nat
deriving DecidableEq

/-- Exceptions escaping main(). -/
inductive RunErr where
  | pyExn
  | keyboardInterrupt
deriving DecidableEq

/-- Lines 306-322: make the backup folder, remove a stale temporary
backup directory, recreate it, and copy the whole worlds directory into
temp_easybackuper_backup/<world_name>. -/
def preSetup (e : RunEnv) : List Action :=
  [Action.makeDir .backupFolder] ++
    (if e.tempBackupDirPreexists then [Action.removeTree .tempBackupDir] else []) ++
    [Action.makeDir .tempBackupDir,
      Action.copyDir .worldsDir .tempWorldBackupDir]

/-- Lines 324-365: the compression branch of the pre-restore backup and
its cleanup.  With use_7z and a missing executable, line 334 removes
the temporary directory and control falls through to the cleanup on
line 364, which removes it again (ignore_errors).  With use_7z and a
non-zero 7za exit code, lines 341-345 remove the temporary directory
and return 1 from main().  With tar (lines 351-360) a non-zero exit is
only logged and the cleanup on line 364 runs. -/
def preTail (e : RunEnv) : List Action × Option Nat :=
  if e.use7z then
    if e.exe7zExists then
      if e.preCompressExit = 0 then
        ([Action.compress .tempWorldBackupDir .backupArchive,
          Action.removeTree .tempBackupDir], none)
      else
        ([Action.compress .tempWorldBackupDir .backupArchive,
          Action.removeTree .tempBackupDir], some 1)
    else
      ([Action.removeTree .tempBackupDir, Action.removeTree .tempBackupDir], none)
  else
    ([Action.compress .tempWorldBackupDir .backupArchive,
      Action.removeTree .tempBackupDir], none)

/-- The PRE_BACKUP block, lines 299-371: executed only when
backup_old_world_before_restore is set; the second component is the
early return value main() produces inside it, if any. -/
def preBackupBlock (e : RunEnv) : List Action × Option Nat :=
  if e.backupOldWorld then (preSetup e ++ (preTail e).1, (preTail e).2) else ([], none)

/-- The EXTRACT block, lines 376-430: remove a stale temporary
directory, create it, and extract the requested archive with the
configured backend.  With use_7z and a missing executable
(lines 394-398) or a failing extraction (lines 405-409, 424-428) the
temporary directory is removed and main() returns 1.  The tar branch
additionally creates temp_easybackuper/<world_name> first (line 421). -/
def extractBlock (e : RunEnv) : List Action × Option Nat :=
  let setup := (if e.tempDirPreexists then [Action.removeTree .tempDir] else []) ++
    [Action.makeDir .tempDir]
  if e.use7z then
    if e.exe7zExists then
      if e.extractExit = 0 then
        (setup ++ [Action.extract .restoreArchive .tempWorldDir], none)
      else
        (setup ++ [Action.extract .restoreArchive .tempWorldDir,
          Action.removeTree .tempDir], some 1)
    else
      (setup ++ [Action.removeTree .tempDir], some 1)
  else
    if e.extractExit = 0 then
      (setup ++ [Action.makeDir .tempWorldDir,
        Action.extract .restoreArchive .tempWorldDir], none)
    else
      (setup ++ [Action.makeDir .tempWorldDir,
        Action.extract .restoreArchive .tempWorldDir,
        Action.removeTree .tempDir], some 1)

/-- The SWAP block, lines 433-466: if worlds/<world_name> exists, its
contents are deleted bottom-up (lines 438-447, modelled in detail by
`walkDelete` below); then temp_easybackuper/<world_name> is copied into
the worlds directory (line 459) and the temporary directory is removed
(line 465). -/
def swapBlock (e : RunEnv) : List Action :=
  (if e.worldDirExists then [Action.deleteWorldContents] else []) ++
    [Action.copyDir .tempWorldDir .worldsDir, Action.removeTree .tempDir]

/-- The restart decision, lines 472-510. -/
def restartBlock (e : RunEnv) : List Action :=
  if e.restartStatus then [Action.launchRestart] else []

/-- main(), lines 234-512, as trace plus outcome.  A KeyboardInterrupt
(modelled as delivered at the start) and a failure of the
process-status query on lines 272-278 — which no handler inside main()
catches — escape as exceptions; otherwise main() runs
detection, PRE_BACKUP, EXTRACT, SWAP and the restart decision in
order, returning 1 from inside PRE_BACKUP or EXTRACT on the branches
modelled above and 0 at line 512 otherwise. -/
def mainRun (e : RunEnv) : List Action × Except RunErr Nat :=
  if e.interrupted then ([], .error .keyboardInterrupt)
  else if e.processQueryFails then ([], .error .pyExn)
  else
    let t0 := if e.serverRunning then [Action.waitUntilStopped] else []
    match (preBackupBlock e).2 with
    | some c => (t0 ++ (preBackupBlock e).1, .ok c)
    | none =>
      match (extractBlock e).2 with
      | some c => (t0 ++ (preBackupBlock e).1 ++ (extractBlock e).1, .ok c)
      | none =>
        (t0 ++ (preBackupBlock e).1 ++ (extractBlock e).1 ++ swapBlock e ++
          restartBlock e, .ok 0)

/-- The top-level block, lines 514-550: `exit_code = main()` stores the
return value but the script then falls off the end, so a normal return
— 0 or 1 alike — yields process exit status 0; KeyboardInterrupt is
mapped to sys.exit(130) on line 547; any other exception is logged on
lines 548-550 and the script again ends with status 0. -/
def scriptExit : Except RunErr Nat → Nat
  | .ok _ => 0
  | .error .keyboardInterrupt => 130
  | .error .pyExn => 0

/-- Process exit status of one invocation. -/
def processExitCode (e : RunEnv) : Nat := scriptExit (mainRun e).2

deriving instance DecidableEq for Except

/-- Is the action an archive compression (a run of the archive tool in
the `a` direction)? -/
def Action.isCompress : Action → Bool
  | .compress _ _ => true
  | _ => false

/-- A pre-restore backup attempt whose 7za compression step fails:
use_7z, executable present, backup_old_world_before_restore set, 7za
exits 2. -/
def envPreFail7z : RunEnv :=
  ⟨true, true, true, false, false, false, false, false, false, true, 2, 0⟩

/-- The process-status query command itself fails. -/
def envQueryFail : RunEnv :=
  ⟨false, true, false, false, false, true, false, false, false, true, 0, 0⟩

/-- use_7z with a missing 7za executable and no pre-restore backup:
the EXTRACT phase fails. -/
def envExtractFail : RunEnv :=
  ⟨true, false, false, false, false, false, false, false, false, true, 0, 0⟩

/-- A fully successful tar-backend run. -/
def envSuccessTar : RunEnv :=
  ⟨false, false, false, false, false, false, false, false, false, true, 0, 0⟩

/-- A run interrupted by the user. -/
def envInterrupt : RunEnv :=
  ⟨false, false, false, false, false, false, true, false, false, true, 0, 0⟩

theorem mainRun_shape (e : RunEnv) (hni : e.interrupted = false)
    (hnq : e.processQueryFails = false) :
    ∃ tail, (mainRun e).1 =
      (if e.serverRunning then [Action.waitUntilStopped] else []) ++
        ((preBackupBlock e).1 ++ tail) := by
  rcases h1 : (preBackupBlock e).2 with _ | c
  · rcases h2 : (extractBlock e).2 with _ | c2
    · exact ⟨(extractBlock e).1 ++ swapBlock e ++ restartBlock e,
        by simp [mainRun, hni, hnq, h1, h2, List.append_assoc]⟩
    · exact ⟨(extractBlock e).1,
        by simp [mainRun, hni, hnq, h1, h2, List.append_assoc]⟩
  · exact ⟨[], by simp [mainRun, hni, hnq, h1]⟩

theorem mainRun_reach_extract (e : RunEnv) (hni : e.interrupted = false)
    (hnq : e.processQueryFails = false) (hpb : (preBackupBlock e).2 = none) :
    ∃ rest, (mainRun e).1 =
      (if e.serverRunning then [Action.waitUntilStopped] else []) ++
        ((preBackupBlock e).1 ++ ((extractBlock e).1 ++ rest)) := by
  rcases h2 : (extractBlock e).2 with _ | c2
  · exact ⟨swapBlock e ++ restartBlock e,
      by simp [mainRun, hni, hnq, hpb, h2, List.append_assoc]⟩
  · exact ⟨[], by simp [mainRun, hni, hnq, hpb, h2, List.append_assoc]⟩

/-- C10: whenever the pre-restore backup is enabled and main() reaches
it, the snapshot action copies the entire worlds directory — source
worldsDir, i.e. worlds, every world included, not worlds/<world_name> —
into temp_easybackuper_backup/<world_name>, a subdirectory of the
temporary backup workspace named after the requested world, and no
compression action precedes that copy in the step sequence of the run. -/
theorem c10_pre_backup_snapshot (e : RunEnv) (wn : String)
    (hni : e.interrupted = false) (hnq : e.processQueryFails = false)
    (hb : e.backupOldWorld = true) :
    (∃ pre rest,
      (mainRun e).1 = pre ++ Action.copyDir .worldsDir .tempWorldBackupDir :: rest ∧
        pre.all (fun a => ! a.isCompress) = true) ∧
      pathOf wn .tempWorldBackupDir = pathOf wn .tempBackupDir ++ [wn] ∧
      pathOf wn .worldsDir = ["worlds"] ∧
      pathOf wn .worldsDir ≠ pathOf wn .worldDir := by
  refine ⟨?_, rfl, rfl, by simp [pathOf]⟩
  obtain ⟨tail, htail⟩ := mainRun_shape e hni hnq
  refine ⟨(if e.serverRunning then [Action.waitUntilStopped] else []) ++
      ([Action.makeDir .backupFolder] ++
        (if e.tempBackupDirPreexists then [Action.removeTree .tempBackupDir] else []) ++
        [Action.makeDir .tempBackupDir]),
    (preTail e).1 ++ tail, ?_, ?_⟩
  · rw [htail]
    simp [preBackupBlock, hb, preSetup, List.append_assoc]
  · cases hs : e.serverRunning <;> cases ht : e.tempBackupDirPreexists <;> decide

theorem c10_pre_backup_snapshot_witness :
    envPreFail7z.interrupted = false ∧ envPreFail7z.processQueryFails = false ∧
      envPreFail7z.backupOldWorld = true ∧
      ((∃ pre rest,
        (mainRun envPreFail7z).1 =
          pre ++ Action.copyDir .worldsDir .tempWorldBackupDir :: rest ∧
          pre.all (fun a => ! a.isCompress) = true) ∧
        pathOf "Bedrock" .tempWorldBackupDir = pathOf "Bedrock" .tempBackupDir ++ ["Bedrock"] ∧
        pathOf "Bedrock" .worldsDir = ["worlds"] ∧
        pathOf "Bedrock" .worldsDir ≠ pathOf "Bedrock" .worldDir) :=
  ⟨rfl, rfl, rfl, c10_pre_backup_snapshot envPreFail7z "Bedrock" rfl rfl rfl⟩

/-- C1 counterexample: with backup_old_world_before_restore set, use_7z
set, the executable present and 7za exiting nonzero during the
pre-restore backup, main() removes the temporary backup directory but
then returns 1 (lines 341-345): the run fails and the EXTRACT phase is
never entered — contradicting the claim that a PRE_BACKUP compression
failure never fails the overall run. -/
theorem c1_pre_backup_counterexample :
    (mainRun envPreFail7z).2 = .ok 1 ∧
      Action.removeTree .tempBackupDir ∈ (mainRun envPreFail7z).1 ∧
      Action.makeDir .tempDir ∉ (mainRun envPreFail7z).1 ∧
      Action.extract .restoreArchive .tempWorldDir ∉ (mainRun envPreFail7z).1 := by
  decide

/-- C1 amended: a PRE_BACKUP compression failure is logged and the
pre-backup temporary directory is removed in every configuration, but
the run proceeds to EXTRACT only with the tar backend (lines 356-360);
with the 7z backend a compression failure makes main() return 1
(lines 341-345) and the EXTRACT phase is never entered. -/
theorem c1_pre_backup_failure_amended (e : RunEnv)
    (hni : e.interrupted = false) (hnq : e.processQueryFails = false)
    (hb : e.backupOldWorld = true) (hf : e.preCompressExit ≠ 0) :
    (e.use7z = true → e.exe7zExists = true →
      (mainRun e).2 = .ok 1 ∧
        Action.removeTree .tempBackupDir ∈ (mainRun e).1 ∧
        Action.makeDir .tempDir ∉ (mainRun e).1) ∧
    (e.use7z = false →
      Action.removeTree .tempBackupDir ∈ (mainRun e).1 ∧
        Action.makeDir .tempDir ∈ (mainRun e).1) := by
  constructor
  · intro hu hx
    have hret : (preBackupBlock e).2 = some 1 := by
      simp [preBackupBlock, hb, preTail, hu, hx, hf]
    have htr : (mainRun e).1 =
        (if e.serverRunning then [Action.waitUntilStopped] else []) ++
          (preBackupBlock e).1 := by
      simp [mainRun, hni, hnq, hret]
    refine ⟨by simp [mainRun, hni, hnq, hret], ?_, ?_⟩
    · rw [htr]
      simp [preBackupBlock, hb, preSetup, preTail, hu, hx, hf]
    · rw [htr]
      cases hs : e.serverRunning <;> cases ht : e.tempBackupDirPreexists <;>
        simp [preBackupBlock, hb, preSetup, preTail, hu, hx, hf]
  · intro hu
    have hpb : (preBackupBlock e).2 = none := by
      simp [preBackupBlock, hb, preTail, hu]
    obtain ⟨rest, hrest⟩ := mainRun_reach_extract e hni hnq hpb
    constructor
    · rw [hrest]
      simp [preBackupBlock, hb, preSetup, preTail, hu]
    · rw [hrest]
      have : Action.makeDir .tempDir ∈ (extractBlock e).1 := by
        by_cases he : e.extractExit = 0 <;>
          cases ht : e.tempDirPreexists <;>
            simp [extractBlock, hu, he, ht]
      simp [this]

theorem c1_pre_backup_failure_amended_witness :
    envPreFail7z.interrupted = false ∧ envPreFail7z.processQueryFails = false ∧
      envPreFail7z.backupOldWorld = true ∧ envPreFail7z.preCompressExit ≠ 0 ∧
      ((envPreFail7z.use7z = true → envPreFail7z.exe7zExists = true →
        (mainRun envPreFail7z).2 = .ok 1 ∧
          Action.removeTree .tempBackupDir ∈ (mainRun envPreFail7z).1 ∧
          Action.makeDir .tempDir ∉ (mainRun envPreFail7z).1) ∧
      (envPreFail7z.use7z = false →
        Action.removeTree .tempBackupDir ∈ (mainRun envPreFail7z).1 ∧
          Action.makeDir .tempDir ∈ (mainRun envPreFail7z).1)) :=
  ⟨rfl, rfl, rfl, by decide,
    c1_pre_backup_failure_amended envPreFail7z rfl rfl rfl (by decide)⟩

/-- C7 counterexample: when the process-status query command fails,
nothing in main() catches the exception (lines 272-291 have no
handler): main() performs no action at all and the exception escapes —
the failure is not recovered as server-not-detected and the run never
reaches the restore phases. -/
theorem c7_query_failure_counterexample :
    mainRun envQueryFail = ([], .error .pyExn) ∧
      Action.makeDir .tempDir ∉ (mainRun envQueryFail).1 ∧
      Action.copyDir .tempWorldDir .worldsDir ∉ (mainRun envQueryFail).1 := by
  decide

/-- C7 amended: a failure of the process-table query is not recovered:
the exception propagates out of main() uncaught, the run performs no
restore phase (its action trace is empty), and only the top-level
handler of lines 548-550 receives it. -/
theorem c7_query_failure_amended (e : RunEnv) (hq : e.processQueryFails = true)
    (hni : e.interrupted = false) :
    mainRun e = ([], .error .pyExn) := by
  simp [mainRun, hq, hni]

theorem c7_query_failure_amended_witness :
    envQueryFail.processQueryFails = true ∧ envQueryFail.interrupted = false ∧
      mainRun envQueryFail = ([], .error .pyExn) :=
  ⟨rfl, rfl, c7_query_failure_amended envQueryFail rfl rfl⟩

/-- C5: an EXTRACT failure (here: use_7z with the configured executable
absent) is fatal at main() level — the temporary workspace is removed,
main() returns 1, and the existing world directory is untouched (no
deletion, no copy into it).  But the claimed process exit code 1 does
not materialize: the top-level block stores exit_code = main() and
never passes it to sys.exit, so the process exits 0 — the code
contradicts the intended contract it itself sets up in the
except-branches of lines 540-547. -/
theorem c5_extract_failure_behavior :
    (mainRun envExtractFail).2 = .ok 1 ∧
      Action.removeTree .tempDir ∈ (mainRun envExtractFail).1 ∧
      Action.deleteWorldContents ∉ (mainRun envExtractFail).1 ∧
      Action.copyDir .tempWorldDir .worldsDir ∉ (mainRun envExtractFail).1 ∧
      Action.compress .tempWorldBackupDir .backupArchive ∉ (mainRun envExtractFail).1 ∧
      processExitCode envExtractFail = 0 := by
  decide

/-- C8: exit status 0 on success and 130 on KeyboardInterrupt hold, but
on a fatal failure main() returns 1 and the process still exits 0: the
top-level block (lines 540-550) assigns exit_code = main() without ever
calling sys.exit on it, and an unhandled exception is merely logged
before the script falls off the end. -/
theorem c8_exit_codes_bug :
    processExitCode envSuccessTar = 0 ∧ (mainRun envSuccessTar).2 = .ok 0 ∧
      processExitCode envInterrupt = 130 ∧
      (mainRun envExtractFail).2 = .ok 1 ∧ processExitCode envExtractFail = 0 ∧
      processExitCode envQueryFail = 0 := by
  decide

/-! ## Bottom-up deletion of the old world directory

Lines 438-447 delete the contents of worlds/<world_name>:

  for root, dirs, files in os.walk(current_world_dir, topdown=False):
      for name in files:
          os.chmod(file_path, stat.S_IWUSR); file_path.unlink()
      for name in dirs:
          dir_path.rmdir()

`walkDelete` reproduces the exact event sequence: os.walk with
topdown=False yields each directory after all of its subdirectories, so
for a node the recursively produced events of its subtrees come first,
then chmod-and-unlink for each of the own files of the node in order, then
rmdir for each immediate subdirectory in order.  The root directory
itself is never passed to rmdir by this loop.

The events are then checked against a small-step filesystem semantics in
which chmod requires the file to exist, unlink requires the file to
exist and to be writable (deleting a read-only file fails, the
situation the chmod call exists for), and rmdir requires the directory
to exist and to be empty. -/

/-- A filesystem path as a list of segments. -/
abbrev FPath := List String

/-- Path q lies strictly inside directory d. -/
def inside (d q : FPath) : Prop := d <+: q ∧ d ≠ q

/-- Boolean test for `inside`. -/
def insideB (d q : FPath) : Bool := d.isPrefixOf q && !(d == q)

theorem insideB_iff (d q : FPath) : insideB d q = true ↔ inside d q := by
  simp [insideB, inside, List.isPrefixOf_iff_prefix]

/-- Deletion events: the operations issued by lines 438-447. -/
inductive DEv where
  | chmod (p : FPath)
  | unlink (p : FPath)
  | rmdir (p : FPath)
deriving DecidableEq

/-- The path an event touches. -/
def DEv.path : DEv → FPath
  | .chmod p => p
  | .unlink p => p
  | .rmdir p => p

/-- Filesystem contents: regular files (path with a read-only flag) and
directories. -/
structure FSState where
  files : List (FPath × Bool)
  dirs : List FPath
deriving DecidableEq

/-- One step of the semantics.  chmod(path, S_IWUSR) clears the
read-only flag of an existing file; unlink removes an existing writable
file (failing on a read-only one, as on the platforms the chmod guards
against); rmdir removes an existing directory with no file or
directory inside it. -/
def applyEv (s : FSState) : DEv → Option FSState
  | .chmod p =>
    if s.files.any (fun f => f.1 == p) then
      some ⟨s.files.map (fun f => if f.1 == p then (f.1, false) else f), s.dirs⟩
    else none
  | .unlink p =>
    if s.files.any (fun f => f.1 == p && !f.2) then
      some ⟨s.files.filter (fun f => !(f.1 == p)), s.dirs⟩
    else none
  | .rmdir p =>
    if s.dirs.any (fun d => d == p) && s.files.all (fun f => !insideB p f.1) &&
        s.dirs.all (fun d => !insideB p d) then
      some ⟨s.files, s.dirs.filter (fun d => !(d == p))⟩
    else none

/-- Run a list of events; none as soon as one step fails. -/
def runEvs : FSState → List DEv → Option FSState
  | s, [] => some s
  | s, e :: rest =>
    match applyEv s e with
    | some s2 => runEvs s2 rest
    | none => none

/-- A file of a world directory: its name and read-only flag. -/
structure FileEnt where
  name : String
  ro : Bool
deriving DecidableEq

mutual
inductive DirTree where
  | node (files : List FileEnt) (subs : DirForest)
inductive DirForest where
  | nil
  | cons (name : String) (tree : DirTree) (rest : DirForest)
end

/-- The names of the immediate directories of a forest, in order (what
os.walk reports as dirs for the parent). -/
def forestNames : DirForest → List String
  | .nil => []
  | .cons n _ rest => n :: forestNames rest

mutual
/-- The event sequence of the deletion loop, lines 438-447, for the
subtree rooted at path p. -/
def walkDelete (p : FPath) : DirTree → List DEv
  | .node fs subs =>
    walkForest p subs ++
      (fs.map (fun f => [DEv.chmod (p ++ [f.name]), DEv.unlink (p ++ [f.name])])).flatten ++
      (forestNames subs).map (fun n => DEv.rmdir (p ++ [n]))
/-- Events of the subtrees of a forest, in order. -/
def walkForest (p : FPath) : DirForest → List DEv
  | .nil => []
  | .cons n t rest => walkDelete (p ++ [n]) t ++ walkForest p rest
end

mutual
/-- All regular files of the subtree at p, with their flags, in the
order matching the recursion of `walkDelete`. -/
def treeFiles (p : FPath) : DirTree → List (FPath × Bool)
  | .node fs subs => forestFiles p subs ++ fs.map (fun f => (p ++ [f.name], f.ro))
def forestFiles (p : FPath) : DirForest → List (FPath × Bool)
  | .nil => []
  | .cons n t rest => treeFiles (p ++ [n]) t ++ forestFiles p rest
end

mutual
/-- All strict subdirectory paths of the subtree at p (p itself
excluded), in the order matching `walkDelete`. -/
def treeDirs (p : FPath) : DirTree → List FPath
  | .node _ subs => forestDirs p subs ++ (forestNames subs).map (fun n => p ++ [n])
def forestDirs (p : FPath) : DirForest → List FPath
  | .nil => []
  | .cons n t rest => treeDirs (p ++ [n]) t ++ forestDirs p rest
end

mutual
/-- Well-formedness of a tree as a filesystem: at every level the file
names are distinct and the directory names are distinct. -/
def wfTree : DirTree → Bool
  | .node fs subs =>
    decide ((fs.map FileEnt.name).Nodup) && decide ((forestNames subs).Nodup) &&
      wfForest subs
def wfForest : DirForest → Bool
  | .nil => true
  | .cons _ t rest => wfTree t && wfForest rest
end

theorem runEvs_append (s : FSState) (l₁ l₂ : List DEv) :
    runEvs s (l₁ ++ l₂) = (runEvs s l₁).bind (fun s2 => runEvs s2 l₂) := by
  induction l₁ generalizing s with
  | nil => rfl
  | cons e rest ih =>
    simp only [List.cons_append, runEvs]
    cases applyEv s e with
    | none => rfl
    | some s2 => exact ih s2

theorem inside_extend (p : FPath) (q : List String) (hq : q ≠ []) :
    inside p (p ++ q) := by
  refine ⟨List.prefix_append p q, fun h => hq ?_⟩
  have := congrArg List.length h
  simp at this
  exact this

theorem inside_of_inside_snoc (p : FPath) (n : String) (q : FPath)
    (h : inside (p ++ [n]) q) : inside p q := by
  obtain ⟨hpre, hne⟩ := h
  refine ⟨(List.prefix_append p [n]).trans hpre, fun he => ?_⟩
  subst he
  have := hpre.length_le
  simp at this

theorem prefix_eq_of_length (l p₁ p₂ : FPath) (h₁ : p₁ <+: l) (h₂ : p₂ <+: l)
    (hl : p₁.length = p₂.length) : p₁ = p₂ := by
  rw [List.prefix_iff_eq_take] at h₁ h₂
  rw [h₁, h₂, hl]

theorem not_inside_snoc_snoc (p : FPath) (n : String) (q : String)
    (h : n ≠ q) : ¬ inside (p ++ [n]) (p ++ [q]) := by
  rintro ⟨hpre, hne⟩
  have := prefix_eq_of_length (p ++ [q]) (p ++ [n]) (p ++ [q]) hpre List.prefix_rfl
    (by simp)
  simp at this
  exact h this

theorem not_inside_same_snoc (p : FPath) (n : String) (q : String) :
    ¬ inside (p ++ [n]) (p ++ [q]) ∨ n = q := by
  by_cases h : n = q
  · exact Or.inr h
  · exact Or.inl (not_inside_snoc_snoc p n q h)

mutual
theorem treeFiles_shape (p : FPath) (t : DirTree) :
    ∀ f ∈ treeFiles p t, ∃ q, q ≠ [] ∧ f.1 = p ++ q := by
  match t with
  | .node fs subs =>
    intro f hf
    rcases List.mem_append.1 hf with h | h
    · obtain ⟨n, q, _, hq⟩ := forestFiles_shape p subs f h
      exact ⟨n :: q, by simp, hq⟩
    · obtain ⟨g, _, rfl⟩ := List.mem_map.1 h
      exact ⟨[g.name], by simp, rfl⟩
theorem forestFiles_shape (p : FPath) (fo : DirForest) :
    ∀ f ∈ forestFiles p fo, ∃ n q, n ∈ forestNames fo ∧ f.1 = p ++ n :: q := by
  match fo with
  | .nil => intro f hf; cases hf
  | .cons n t rest =>
    intro f hf
    rcases List.mem_append.1 hf with h | h
    · obtain ⟨q, _, hq⟩ := treeFiles_shape (p ++ [n]) t f h
      exact ⟨n, q, by simp [forestNames], by simpa using hq⟩
    · obtain ⟨m, q, hm, hq⟩ := forestFiles_shape p rest f h
      exact ⟨m, q, by simp [forestNames, hm], hq⟩
end

mutual
theorem treeDirs_shape (p : FPath) (t : DirTree) :
    ∀ d ∈ treeDirs p t, ∃ q, q ≠ [] ∧ d = p ++ q := by
  match t with
  | .node fs subs =>
    intro d hd
    rcases List.mem_append.1 hd with h | h
    · obtain ⟨n, q, _, hq⟩ := forestDirs_shape p subs d h
      exact ⟨n :: q, by simp, hq⟩
    · obtain ⟨n, _, rfl⟩ := List.mem_map.1 h
      exact ⟨[n], by simp, rfl⟩
theorem forestDirs_shape (p : FPath) (fo : DirForest) :
    ∀ d ∈ forestDirs p fo, ∃ n q, n ∈ forestNames fo ∧ d = p ++ n :: q := by
  match fo with
  | .nil => intro d hd; cases hd
  | .cons n t rest =>
    intro d hd
    rcases List.mem_append.1 hd with h | h
    · obtain ⟨q, _, hq⟩ := treeDirs_shape (p ++ [n]) t d h
      exact ⟨n, q, by simp [forestNames], by simpa using hq⟩
    · obtain ⟨m, q, hm, hq⟩ := forestDirs_shape p rest d h
      exact ⟨m, q, by simp [forestNames, hm], hq⟩
end

theorem insideB_eq_false_iff (d q : FPath) : insideB d q = false ↔ ¬ inside d q := by
  rw [← insideB_iff]
  cases insideB d q <;> simp

theorem map_clear_keep (l : List (FPath × Bool)) (pf : FPath)
    (h : ∀ g ∈ l, g.1 ≠ pf) :
    l.map (fun g => if g.1 == pf then (g.1, false) else g) = l := by
  induction l with
  | nil => rfl
  | cons a l ih =>
    have ha : (a.1 == pf) = false := beq_eq_false_iff_ne.2 (h a (by simp))
    simp only [List.map_cons, ha, Bool.false_eq_true, if_false]
    rw [ih (fun g hg => h g (by simp [hg]))]

theorem filter_fst_keep (l : List (FPath × Bool)) (pf : FPath)
    (h : ∀ g ∈ l, g.1 ≠ pf) :
    l.filter (fun g => !(g.1 == pf)) = l := by
  induction l with
  | nil => rfl
  | cons a l ih =>
    have ha : (a.1 == pf) = false := beq_eq_false_iff_ne.2 (h a (by simp))
    simp only [List.filter_cons, ha, Bool.not_false, if_pos]
    rw [ih (fun g hg => h g (by simp [hg]))]

theorem filter_dir_keep (l : List FPath) (pf : FPath)
    (h : ∀ d ∈ l, d ≠ pf) :
    l.filter (fun d => !(d == pf)) = l := by
  induction l with
  | nil => rfl
  | cons a l ih =>
    have ha : (a == pf) = false := beq_eq_false_iff_ne.2 (h a (by simp))
    simp only [List.filter_cons, ha, Bool.not_false, if_pos]
    rw [ih (fun d hd => h d (by simp [hd]))]

theorem runFilePhase (fs : List FileEnt) (p : FPath)
    (extraF : List (FPath × Bool)) (dirs : List FPath)
    (hnd : (fs.map FileEnt.name).Nodup)
    (hdisj : ∀ g ∈ extraF, ∀ f ∈ fs, g.1 ≠ p ++ [f.name]) :
    runEvs ⟨fs.map (fun f => (p ++ [f.name], f.ro)) ++ extraF, dirs⟩
      ((fs.map (fun f => [DEv.chmod (p ++ [f.name]),
        DEv.unlink (p ++ [f.name])])).flatten) = some ⟨extraF, dirs⟩ := by
  induction fs with
  | nil => rfl
  | cons f rest ih =>
    have hne : ∀ g ∈ rest.map (fun f2 => (p ++ [f2.name], f2.ro)) ++ extraF,
        g.1 ≠ p ++ [f.name] := by
      intro g hg
      rcases List.mem_append.1 hg with h | h
      · obtain ⟨f2, hf2, rfl⟩ := List.mem_map.1 h
        intro hc
        simp only [List.append_cancel_left_eq, List.cons.injEq, and_true] at hc
        have hm : f2.name ∈ rest.map FileEnt.name := List.mem_map.2 ⟨f2, hf2, rfl⟩
        rw [hc] at hm
        exact (List.nodup_cons.1 (by simpa using hnd)).1 hm
      · exact hdisj g h f (by simp)
    simp only [List.map_cons, List.flatten_cons, List.cons_append, runEvs]
    have hstep1 : applyEv ⟨(p ++ [f.name], f.ro) ::
        (rest.map (fun f2 => (p ++ [f2.name], f2.ro)) ++ extraF), dirs⟩
        (DEv.chmod (p ++ [f.name])) =
        some ⟨(p ++ [f.name], false) ::
          (rest.map (fun f2 => (p ++ [f2.name], f2.ro)) ++ extraF), dirs⟩ := by
      simp only [applyEv, List.any_cons, beq_self_eq_true, Bool.true_or, if_pos,
        List.map_cons]
      rw [map_clear_keep _ _ hne]
    have hstep2 : applyEv ⟨(p ++ [f.name], false) ::
        (rest.map (fun f2 => (p ++ [f2.name], f2.ro)) ++ extraF), dirs⟩
        (DEv.unlink (p ++ [f.name])) =
        some ⟨rest.map (fun f2 => (p ++ [f2.name], f2.ro)) ++ extraF, dirs⟩ := by
      simp only [applyEv, List.any_cons, beq_self_eq_true, Bool.not_false,
        Bool.and_self, Bool.true_or, if_pos, List.filter_cons, Bool.not_true,
        Bool.false_eq_true, if_false]
      rw [filter_fst_keep _ _ hne]
    rw [hstep1]
    simp only [runEvs]
    rw [hstep2]
    exact ih (by simpa using (List.nodup_cons.1 (by simpa using hnd)).2)
      (fun g hg f2 hf2 => hdisj g hg f2 (by simp [hf2]))

theorem runRmdirPhase (names : List String) (p : FPath)
    (extraF : List (FPath × Bool)) (extraD : List FPath)
    (hnd : names.Nodup)
    (hF : ∀ f ∈ extraF, ∀ n ∈ names, ¬ inside (p ++ [n]) f.1)
    (hD : ∀ d ∈ extraD, ∀ n ∈ names, ¬ (p ++ [n]) <+: d) :
    runEvs ⟨extraF, names.map (fun n => p ++ [n]) ++ extraD⟩
      (names.map (fun n => DEv.rmdir (p ++ [n]))) = some ⟨extraF, extraD⟩ := by
  induction names with
  | nil => rfl
  | cons n rest ih =>
    have hnotin : n ∉ rest := (List.nodup_cons.1 hnd).1
    have hcond1 : (((p ++ [n]) :: (rest.map (fun m => p ++ [m]) ++ extraD)).any
        (fun d => d == p ++ [n])) = true := by
      simp
    have hcond2 : (extraF.all (fun f => !insideB (p ++ [n]) f.1)) = true := by
      rw [List.all_eq_true]
      intro f hf
      rw [Bool.not_eq_true', insideB_eq_false_iff]
      exact hF f hf n (by simp)
    have hcond3 : (((p ++ [n]) :: (rest.map (fun m => p ++ [m]) ++ extraD)).all
        (fun d => !insideB (p ++ [n]) d)) = true := by
      rw [List.all_eq_true]
      intro d hd
      rw [Bool.not_eq_true', insideB_eq_false_iff]
      rcases List.mem_cons.1 hd with h | h
      · subst h
        rintro ⟨_, hne⟩
        exact hne rfl
      · rcases List.mem_append.1 h with h2 | h2
        · obtain ⟨m, hm, rfl⟩ := List.mem_map.1 h2
          exact not_inside_snoc_snoc p n m (fun he => hnotin (he ▸ hm))
        · intro hc
          exact hD d h2 n (by simp) hc.1
    have hfilter : (((p ++ [n]) :: (rest.map (fun m => p ++ [m]) ++ extraD)).filter
        (fun d => !(d == p ++ [n]))) = rest.map (fun m => p ++ [m]) ++ extraD := by
      simp only [List.filter_cons, beq_self_eq_true, Bool.not_true,
        Bool.false_eq_true, if_false]
      apply filter_dir_keep
      intro d hd
      rcases List.mem_append.1 hd with h2 | h2
      · obtain ⟨m, hm, rfl⟩ := List.mem_map.1 h2
        intro hc
        simp only [List.append_cancel_left_eq, List.cons.injEq, and_true] at hc
        exact hnotin (hc ▸ hm)
      · intro hc
        exact hD d h2 n (by simp) (hc ▸ List.prefix_rfl)
    simp only [List.map_cons, List.cons_append, runEvs, applyEv]
    rw [hcond1, hcond2, hcond3]
    simp only [Bool.and_self, Bool.true_and, if_pos]
    rw [hfilter]
    exact ih (List.nodup_cons.1 hnd).2
      (fun f hf m hm => hF f hf m (by simp [hm]))
      (fun d hd m hm => hD d hd m (by simp [hm]))

theorem inside_length_lt (d q : FPath) (h : inside d q) : d.length < q.length := by
  rcases h with ⟨hpre, hne⟩
  rcases Nat.lt_or_ge d.length q.length with h2 | h2
  · exact h2
  · exact absurd (prefix_eq_of_length q d q hpre List.prefix_rfl
      (le_antisymm hpre.length_le h2)) hne

theorem not_prefix_snoc_of_not_inside (p d : FPath) (n : String)
    (h : ¬ inside p d) : ¬ (p ++ [n]) <+: d := by
  intro hpre
  apply h
  refine ⟨(List.prefix_append p [n]).trans hpre, fun he => ?_⟩
  subst he
  have := hpre.length_le
  simp at this

theorem not_inside_snoc_sibling (p : FPath) (n m : String) (q : FPath)
    (hnm : n ≠ m) : ¬ inside (p ++ [n]) (p ++ m :: q) := by
  rintro ⟨hpre, _⟩
  have hm : (p ++ [m]) <+: (p ++ m :: q) := ⟨q, by simp⟩
  have := prefix_eq_of_length (p ++ m :: q) (p ++ [n]) (p ++ [m]) hpre hm (by simp)
  simp only [List.append_cancel_left_eq, List.cons.injEq, and_true] at this
  exact hnm this

mutual
theorem runTree (t : DirTree) (p : FPath) (extraF : List (FPath × Bool))
    (extraD : List FPath) (hwf : wfTree t = true)
    (hF : ∀ f ∈ extraF, ¬ inside p f.1) (hD : ∀ d ∈ extraD, ¬ inside p d) :
    runEvs ⟨treeFiles p t ++ extraF, treeDirs p t ++ extraD⟩ (walkDelete p t) =
      some ⟨extraF, extraD⟩ := by
  match t with
  | .node fs subs =>
    simp only [wfTree, Bool.and_eq_true, decide_eq_true_eq] at hwf
    obtain ⟨⟨hndF, hndN⟩, hwfF⟩ := hwf
    have hF1 : ∀ f ∈ fs.map (fun f => (p ++ [f.name], f.ro)) ++ extraF,
        ∀ n ∈ forestNames subs, ¬ inside (p ++ [n]) f.1 := by
      intro f hf n _
      rcases List.mem_append.1 hf with h | h
      · obtain ⟨g, _, rfl⟩ := List.mem_map.1 h
        intro hin
        have := inside_length_lt _ _ hin
        simp at this
      · intro hin
        exact hF f h (inside_of_inside_snoc p n f.1 hin)
    have hD1 : ∀ d ∈ (forestNames subs).map (fun n => p ++ [n]) ++ extraD,
        ∀ n ∈ forestNames subs, ¬ inside (p ++ [n]) d := by
      intro d hd n _
      rcases List.mem_append.1 hd with h | h
      · obtain ⟨m, _, rfl⟩ := List.mem_map.1 h
        intro hin
        have := inside_length_lt _ _ hin
        simp at this
      · intro hin
        exact hD d h (inside_of_inside_snoc p n d hin)
    have hforest := runForest subs p
      (fs.map (fun f => (p ++ [f.name], f.ro)) ++ extraF)
      ((forestNames subs).map (fun n => p ++ [n]) ++ extraD)
      hwfF hndN hF1 hD1
    have hfiles := runFilePhase fs p extraF
      ((forestNames subs).map (fun n => p ++ [n]) ++ extraD) hndF
      (fun g hg f hf => fun hc => hF g hg (hc ▸ inside_extend p [f.name] (by simp)))
    have hrm := runRmdirPhase (forestNames subs) p extraF extraD hndN
      (fun f hf n hn => fun hin => hF f hf (inside_of_inside_snoc p n f.1 hin))
      (fun d hd n hn => not_prefix_snoc_of_not_inside p d n (hD d hd))
    show runEvs ⟨treeFiles p (.node fs subs) ++ extraF,
      treeDirs p (.node fs subs) ++ extraD⟩ (walkDelete p (.node fs subs)) = _
    simp only [treeFiles, treeDirs, walkDelete, List.append_assoc]
    rw [runEvs_append]
    rw [hforest]
    simp only [Option.some_bind]
    rw [runEvs_append]
    rw [hfiles]
    simp only [Option.some_bind]
    exact hrm
theorem runForest (fo : DirForest) (p : FPath) (extraF : List (FPath × Bool))
    (extraD : List FPath) (hwf : wfForest fo = true)
    (hnd : (forestNames fo).Nodup)
    (hF : ∀ f ∈ extraF, ∀ n ∈ forestNames fo, ¬ inside (p ++ [n]) f.1)
    (hD : ∀ d ∈ extraD, ∀ n ∈ forestNames fo, ¬ inside (p ++ [n]) d) :
    runEvs ⟨forestFiles p fo ++ extraF, forestDirs p fo ++ extraD⟩
      (walkForest p fo) = some ⟨extraF, extraD⟩ := by
  match fo with
  | .nil => rfl
  | .cons n t rest =>
    simp only [wfForest, Bool.and_eq_true] at hwf
    obtain ⟨hwfT, hwfR⟩ := hwf
    simp only [forestNames, List.nodup_cons] at hnd
    obtain ⟨hnotin, hndR⟩ := hnd
    have hF1 : ∀ f ∈ forestFiles p rest ++ extraF, ¬ inside (p ++ [n]) f.1 := by
      intro f hf
      rcases List.mem_append.1 hf with h | h
      · obtain ⟨m, q, hm, hq⟩ := forestFiles_shape p rest f h
        rw [hq]
        exact not_inside_snoc_sibling p n m q (fun he => hnotin (he ▸ hm))
      · exact hF f h n (by simp [forestNames])
    have hD1 : ∀ d ∈ forestDirs p rest ++ extraD, ¬ inside (p ++ [n]) d := by
      intro d hd
      rcases List.mem_append.1 hd with h | h
      · obtain ⟨m, q, hm, hq⟩ := forestDirs_shape p rest d h
        rw [hq]
        exact not_inside_snoc_sibling p n m q (fun he => hnotin (he ▸ hm))
      · exact hD d h n (by simp [forestNames])
    have htree := runTree t (p ++ [n]) (forestFiles p rest ++ extraF)
      (forestDirs p rest ++ extraD) hwfT hF1 hD1
    have hrest := runForest rest p extraF extraD hwfR hndR
      (fun f hf m hm => hF f hf m (by simp [forestNames, hm]))
      (fun d hd m hm => hD d hd m (by simp [forestNames, hm]))
    show runEvs ⟨forestFiles p (.cons n t rest) ++ extraF,
      forestDirs p (.cons n t rest) ++ extraD⟩ (walkForest p (.cons n t rest)) = _
    simp only [forestFiles, forestDirs, walkForest, List.append_assoc]
    rw [runEvs_append]
    rw [htree]
    simp only [Option.some_bind]
    exact hrest
end

mutual
theorem walkDelete_shape (p : FPath) (t : DirTree) :
    ∀ e ∈ walkDelete p t, ∃ q, q ≠ [] ∧ DEv.path e = p ++ q := by
  match t with
  | .node fs subs =>
    intro e he
    simp only [walkDelete, List.append_assoc, List.mem_append] at he
    rcases he with h | h | h
    · obtain ⟨n, q, _, hq⟩ := walkForest_shape p subs e h
      exact ⟨n :: q, by simp, hq⟩
    · obtain ⟨l, hl, hel⟩ := List.mem_flatten.1 h
      obtain ⟨f, _, rfl⟩ := List.mem_map.1 hl
      rcases List.mem_cons.1 hel with rfl | hel2
      · exact ⟨[f.name], by simp, rfl⟩
      · rcases List.mem_cons.1 hel2 with rfl | hel3
        · exact ⟨[f.name], by simp, rfl⟩
        · cases hel3
    · obtain ⟨n, _, rfl⟩ := List.mem_map.1 h
      exact ⟨[n], by simp, rfl⟩
theorem walkForest_shape (p : FPath) (fo : DirForest) :
    ∀ e ∈ walkForest p fo, ∃ n q, n ∈ forestNames fo ∧ DEv.path e = p ++ n :: q := by
  match fo with
  | .nil => intro e he; cases he
  | .cons n t rest =>
    intro e he
    rcases List.mem_append.1 he with h | h
    · obtain ⟨q, _, hq⟩ := walkDelete_shape (p ++ [n]) t e h
      exact ⟨n, q, by simp [forestNames], by simpa using hq⟩
    · obtain ⟨m, q, hm, hq⟩ := walkForest_shape p rest e h
      exact ⟨m, q, by simp [forestNames, hm], hq⟩
end

/-- A world directory holding a read-only file at its top and a
subdirectory db with another read-only file: the shape described by the
read-only scenario of the claim. -/
def cexTree : DirTree :=
  DirTree.node [⟨"level.dat", true⟩]
    (DirForest.cons "db" (DirTree.node [⟨"CURRENT", true⟩] DirForest.nil)
      DirForest.nil)

/-- C6 counterexample: on a world directory containing read-only files,
the deletion loop of lines 438-447 never issues an rmdir for the root
of the world directory — running its event sequence on the
corresponding filesystem leaves the (now empty) root directory in
place, contradicting the claim that the root itself is removed. -/
theorem c6_deletion_counterexample :
    DEv.rmdir ["worlds", "Bedrock"] ∉
        walkDelete ["worlds", "Bedrock"] cexTree ∧
      (treeFiles ["worlds", "Bedrock"] cexTree).any (fun f => f.2) = true ∧
      runEvs ⟨treeFiles ["worlds", "Bedrock"] cexTree,
          treeDirs ["worlds", "Bedrock"] cexTree ++ [["worlds", "Bedrock"]]⟩
        (walkDelete ["worlds", "Bedrock"] cexTree) =
        some ⟨[], [["worlds", "Bedrock"]]⟩ := by
  decide

/-- C6 amended: for every well-formed world directory tree — read-only
files included — the bottom-up deletion of lines 438-447 succeeds under
a semantics where unlink fails on a read-only file (the chmod issued
before each unlink clears the flag) and rmdir fails on a missing or
non-empty directory: every file and every strict subdirectory is
removed, but the root of the active world directory is not removed —
it survives as an empty directory; no rmdir event for the root is ever
issued. -/
theorem c6_deletion_amended (root : FPath) (t : DirTree)
    (hwf : wfTree t = true) :
    runEvs ⟨treeFiles root t, treeDirs root t ++ [root]⟩
        (walkDelete root t) = some ⟨[], [root]⟩ ∧
      DEv.rmdir root ∉ walkDelete root t := by
  constructor
  · have h := runTree t root [] [root] hwf (by simp)
      (by intro d hd; simp at hd; subst hd; rintro ⟨_, hne⟩; exact hne rfl)
    simpa using h
  · intro hmem
    obtain ⟨q, hq, hpath⟩ := walkDelete_shape root t (DEv.rmdir root) hmem
    simp only [DEv.path] at hpath
    have := congrArg List.length hpath
    simp at this
    exact hq this

theorem c6_deletion_amended_witness :
    wfTree cexTree = true ∧
      (runEvs ⟨treeFiles ["worlds", "Bedrock"] cexTree,
          treeDirs ["worlds", "Bedrock"] cexTree ++ [["worlds", "Bedrock"]]⟩
        (walkDelete ["worlds", "Bedrock"] cexTree) =
          some ⟨[], [["worlds", "Bedrock"]]⟩ ∧
        DEv.rmdir ["worlds", "Bedrock"] ∉
          walkDelete ["worlds", "Bedrock"] cexTree) :=
  ⟨by decide, c6_deletion_amended ["worlds", "Bedrock"] cexTree (by decide)⟩

/-! ## File-level effect of EXTRACT plus the SWAP copy

Line 423 extracts the archive into temp_easybackuper/<world_name>
(every archive entry with relative path r becomes a file at
temp_easybackuper/<world_name>/r), and line 459 copies
temp_easybackuper/<world_name> into worlds — each regular file under
the source reappears at destination ++ (path relative to source),
which is the file-set effect of copy_dir_with_progress
(lines 129-151; the batch partition slices the file list exactly, so
each file is copied once). -/

/-- Effect of tar -xzf archive -C dst (line 423) on the file set. -/
def tarExtract (archive : List (FPath × String)) (dst : FPath) :
    List (FPath × String) :=
  archive.map (fun a => (dst ++ a.1, a.2))

/-- File-level effect of copy_dir_with_progress(src, dst): every
regular file under src is copied to dst ++ (its path relative to
src). -/
def copyDirFiles (fsFiles : List (FPath × String)) (src dst : FPath) :
    List (FPath × String) :=
  (fsFiles.filter (fun f => src.isPrefixOf f.1)).map
    (fun f => (dst ++ f.1.drop src.length, f.2))

/-- The files lying strictly inside directory d. -/
def filesUnder (d : FPath) (fs : List (FPath × String)) : List (FPath × String) :=
  fs.filter (fun f => insideB d f.1)

/-- The files that EXTRACT-then-SWAP places under the worlds
directory, for a given archive content: extraction into
temp_easybackuper/<wn> followed by the copy of that directory into
worlds (line 459). -/
def swapCopiedFiles (archive : List (FPath × String)) (wn : String) :
    List (FPath × String) :=
  copyDirFiles (tarExtract archive ["temp_easybackuper", wn])
    ["temp_easybackuper", wn] ["worlds"]

theorem swapCopiedFiles_eq (archive : List (FPath × String)) (wn : String) :
    swapCopiedFiles archive wn =
      archive.map (fun a => (["worlds"] ++ a.1, a.2)) := by
  unfold swapCopiedFiles copyDirFiles tarExtract
  rw [List.filter_eq_self.2]
  · rw [List.map_map]
    apply List.map_congr_left
    intro a _
    simp only [Function.comp]
    rw [List.drop_left]
  · intro f hf
    obtain ⟨a, _, rfl⟩ := List.mem_map.1 hf
    rw [ List.isPrefixOf_iff_prefix]
    exact List.prefix_append _ _

/-- C2 counterexample: in a successful tar run the SWAP copy of
line 459 targets the worlds directory itself, not
worlds/<world_name>; for an archive whose entries are not nested
under a <world_name> top-level directory (here a bare level.dat), the
resulting file lands at worlds/level.dat and worlds/Bedrock receives
nothing — the destination stated by the claim and its identical-content
consequence fail at this input. -/
theorem c2_swap_counterexample :
    (mainRun envSuccessTar).2 = .ok 0 ∧
      Action.copyDir .tempWorldDir .worldsDir ∈ (mainRun envSuccessTar).1 ∧
      Action.copyDir .tempWorldDir .worldDir ∉ (mainRun envSuccessTar).1 ∧
      pathOf "Bedrock" .worldsDir ≠ pathOf "Bedrock" .worldDir ∧
      swapCopiedFiles [(["level.dat"], "DATA")] "Bedrock" =
        [(["worlds", "level.dat"], "DATA")] ∧
      filesUnder (pathOf "Bedrock" .worldDir)
        (swapCopiedFiles [(["level.dat"], "DATA")] "Bedrock") = [] := by
  decide

/-- C2 amended: in the SWAP phase, after deleting the old world, the
extracted directory temp_easybackuper/<world_name> is copied into the
worlds directory itself (serverDirectory/worlds, the parent of the
active world directory), and main() returns 0; when every archive
entry lies under a top-level directory named <world_name> — the layout
the tar pre-backup of this plugin produces — this leaves
serverDirectory/worlds/<world_name> populated with exactly the files
and contents of the archive. -/
theorem c2_swap_amended (e : RunEnv) (wn : String)
    (archive : List (FPath × String))
    (hni : e.interrupted = false) (hnq : e.processQueryFails = false)
    (hu : e.use7z = false) (hx : e.extractExit = 0)
    (harch : ∀ a ∈ archive, ∃ r, a.1 = wn :: r ∧ r ≠ []) :
    (mainRun e).2 = .ok 0 ∧
      Action.copyDir .tempWorldDir .worldsDir ∈ (mainRun e).1 ∧
      swapCopiedFiles archive wn =
        archive.map (fun a => (["worlds"] ++ a.1, a.2)) ∧
      filesUnder (pathOf wn .worldDir) (swapCopiedFiles archive wn) =
        archive.map (fun a => (["worlds"] ++ a.1, a.2)) := by
  have hpb : (preBackupBlock e).2 = none := by
    cases hb : e.backupOldWorld <;> simp [preBackupBlock, hb, preTail, hu]
  have hex : (extractBlock e).2 = none := by
    simp [extractBlock, hu, hx]
  refine ⟨by simp [mainRun, hni, hnq, hpb, hex], ?_, swapCopiedFiles_eq archive wn, ?_⟩
  · simp [mainRun, hni, hnq, hpb, hex, swapBlock]
  · rw [swapCopiedFiles_eq]
    unfold filesUnder
    rw [List.filter_eq_self.2]
    intro f hf
    obtain ⟨a, ha, rfl⟩ := List.mem_map.1 hf
    obtain ⟨r, har, hr⟩ := harch a ha
    rw [har]
    exact insideB_iff _ _ |>.2 (inside_extend ["worlds", wn] r hr)

theorem c2_swap_amended_witness :
    envSuccessTar.interrupted = false ∧ envSuccessTar.processQueryFails = false ∧
      envSuccessTar.use7z = false ∧ envSuccessTar.extractExit = 0 ∧
      (∀ a ∈ [((["Bedrock", "level.dat"] : FPath), "DATA")],
        ∃ r, a.1 = "Bedrock" :: r ∧ r ≠ []) ∧
      ((mainRun envSuccessTar).2 = .ok 0 ∧
        Action.copyDir .tempWorldDir .worldsDir ∈ (mainRun envSuccessTar).1 ∧
        swapCopiedFiles [(["Bedrock", "level.dat"], "DATA")] "Bedrock" =
          List.map (fun a => (["worlds"] ++ a.1, a.2))
            [(["Bedrock", "level.dat"], "DATA")] ∧
        filesUnder (pathOf "Bedrock" .worldDir)
          (swapCopiedFiles [(["Bedrock", "level.dat"], "DATA")] "Bedrock") =
          List.map (fun a => (["worlds"] ++ a.1, a.2))
            [(["Bedrock", "level.dat"], "DATA")]) :=
  ⟨rfl, rfl, rfl, rfl,
    by
      intro a ha
      simp only [List.mem_singleton] at ha
      subst ha
      exact ⟨["level.dat"], rfl, by simp⟩,
    c2_swap_amended envSuccessTar "Bedrock" [(["Bedrock", "level.dat"], "DATA")]
      rfl rfl rfl rfl
      (by
        intro a ha
        simp only [List.mem_singleton] at ha
        subst ha
        exact ⟨["level.dat"], rfl, by simp⟩)⟩

end EasyBackuper
